import Mathlib

/-!
Verification development for the rsolver propositional SAT solver
(rsolver.cpp).  The data model (tokens, literal registry, working
assignment values), the recursive-descent expression evaluator and the
backtracking search are embedded shallowly; machine behaviour that the
C++ leaves undefined (out-of-bounds iterator or vector accesses, reads
of uninitialized fields) is made explicit through a distinguished
outcome constructor.
-/

namespace Rsolver

/-- Outcome of running a piece of the program in the model: a normal
return value `ok`, `ub` when the source performs undefined behaviour
(an out-of-bounds iterator or vector access, or a read of an
uninitialized field), or `spin` when the recursion-fuel bound of the
model is exhausted. -/
inductive Res (α : Type) where
  | ok : α → Res α
  | ub : Res α
  | spin : Res α
deriving DecidableEq, Repr

/-- Token types, from `enum TokType` in rsolver.cpp. -/
inductive TokType where
  | TT_Unknown
  | TT_And
  | TT_Or
  | TT_Not
  | TT_Literal
  | TT_OpenBracket
  | TT_CloseBracket
  | TT_Space
  | TT_Eof
deriving DecidableEq, Repr

/-- Mirrors `typeToString` (the unreachable `NotHandled` default is
subsumed by totality of the match). -/
def typeToString : TokType → String
  | .TT_Unknown => "Unknown"
  | .TT_And => "&"
  | .TT_Or => "|"
  | .TT_Not => "~"
  | .TT_Literal => "Literal"
  | .TT_OpenBracket => "("
  | .TT_CloseBracket => ")"
  | .TT_Space => "Space"
  | .TT_Eof => "Eof"

/-- Mirrors `class Token`: a type tag, the literal name (`mLiteral`,
meaningful for `TT_Literal` tokens) and the registry index `mLitIndex`
assigned by `assignLiteralIndexes`.  The C++ leaves `mLitIndex`
uninitialized until assignment; `-1` (the unresolved marker produced by
`findLitName`) stands in for that here. -/
structure Token where
  mType : TokType
  mLiteral : String := ""
  mLitIndex : Int := -1
deriving DecidableEq, Repr

/-- Mirrors `Token::toString`. -/
def Token.toString (t : Token) : String :=
  if t.mType = .TT_Literal then t.mLiteral else typeToString t.mType

/-- Mirrors `class WorkingValues`: the vector `mValues` of one boolean
per registry literal and the index `mStartOfThawed` splitting it into a
frozen prefix and a thawed suffix.  The name pointer `mpNames` is
display-only (used by `toString` alone) and is omitted. -/
structure WorkingValues where
  mValues : List Bool
  mStartOfThawed : Int
deriving DecidableEq, Repr

/-- `WorkingValues()` / `WorkingValues::clear()`: no values,
`initStartOfThawed` yields `-1` on an empty vector. -/
def WorkingValues.empty : WorkingValues := ⟨[], -1⟩

/-- `WorkingValues(const LitNames *)`: `initValues` pushes `n` copies of
`false`, `initStartOfThawed` yields `0` when nonempty and `-1` when
empty. -/
def WorkingValues.init (n : Nat) : WorkingValues :=
  ⟨List.replicate n false, if 0 < n then 0 else -1⟩

/-- `WorkingValues::advance`: copy the values, move the start of the
thawed region one position right. -/
def WorkingValues.advance (w : WorkingValues) : WorkingValues :=
  ⟨w.mValues, w.mStartOfThawed + 1⟩

/-- `WorkingValues::sizeThawed`.  In the source the else-branch computes
`mValues.size() - mStartOfThawed` in `size_t`; truncated `Nat`
subtraction coincides with it whenever `mStartOfThawed ≤ size`, which
holds at every use in the program. -/
def WorkingValues.sizeThawed (w : WorkingValues) : Nat :=
  if w.mValues.isEmpty ∨ w.mStartOfThawed < 0 then 0
  else w.mValues.length - w.mStartOfThawed.toNat

/-- `WorkingValues::setFrozenLastBool`: write `mValues[mStartOfThawed - 1]`.
Every call in the program has `1 ≤ mStartOfThawed ≤ size`, so the
in-bounds `List.set` coincides with the C++ vector write. -/
def WorkingValues.setFrozenLastBool (w : WorkingValues) (b : Bool) : WorkingValues :=
  ⟨w.mValues.set (w.mStartOfThawed - 1).toNat b, w.mStartOfThawed⟩

/-- Mirrors `class EvalResult`: an optional boolean (`none` models the
uninitialized `mBoolResult` of a freshly constructed or error result)
and the error string; `isError` means `mError` nonempty. -/
structure EvalResult where
  mBoolResult : Option Bool
  mError : String
deriving DecidableEq, Repr

/-- The `EvalResult()` constructor: error `"No result set"`, boolean
uninitialized. -/
def EvalResult.initR : EvalResult := ⟨none, "No result set"⟩

/-- `EvalResult::isError`. -/
def EvalResult.isError (r : EvalResult) : Bool := r.mError != ""

/-- `EvalResult::setBool` applied to a fresh result (clears the error,
sets the boolean). -/
def EvalResult.boolR (b : Bool) : EvalResult := ⟨some b, ""⟩

/-- `EvalResult::setError` applied to a fresh result (the boolean stays
uninitialized). -/
def EvalResult.errR (msg : String) : EvalResult := ⟨none, msg⟩

/-- `EvalResult::setError` on an existing result: the boolean field is
left untouched. -/
def EvalResult.setError (r : EvalResult) (msg : String) : EvalResult :=
  { r with mError := msg }

mutual

/-- Mirrors `evalClause(tokens, it, literals, depth)`.  The iterator is
the index `i` of the token the call starts at; a returned pair carries
the result and the index the iterator was left at.  `literals.getBool`
reads only `mValues`, so the working values are passed as the plain
list `vals`.  Token accesses are `tokens[i]?` with `none ↦ Res.ub`
(dereferencing an invalid iterator is undefined behaviour);
`vals[idx]?` likewise models `std::vector` indexing.  The `depth`
argument of the source only feeds the `gnMaxDepth` diagnostic and is
omitted.  The fuel argument bounds the recursion depth of the model
only; `evalFuel` is always enough (`eval_no_spin`). -/
def evalClauseF : Nat → List Token → Nat → List Bool → Res (EvalResult × Nat)
  | 0, _, _, _ => .spin
  | f + 1, tokens, i, vals =>
    match tokens[i]? with
    | none => .ub
    | some t =>
      match t.mType with
      | .TT_Unknown => .ok (.errR "Encountered Unknown token", i)
      | .TT_And => .ok (.errR "A clause cannot begin with an &", i)
      | .TT_Or => .ok (.errR "A clause cannot begin with an |", i)
      | .TT_Not =>
        -- it++; if (it == tokens.end()) error; else recurse
        if i + 1 = tokens.length then .ok (.errR "Expected something after a Not", i + 1)
        else
          match evalClauseF f tokens (i + 1) vals with
          | .spin => .spin
          | .ub => .ub
          | .ok (right, k) =>
            if right.isError then .ok (right, k)
            else
              match right.mBoolResult with
              | none => .ub
              | some b => .ok (.boolR (! b), k)
      | .TT_Literal =>
        if t.mLitIndex < 0 then .ok (.errR ("Unknown Literal " ++ t.mLiteral), i)
        else
          match vals[t.mLitIndex.toNat]? with
          | none => .ub
          | some b => .ok (.boolR b, i)
      | .TT_OpenBracket =>
        -- it++; if (it == tokens.end()) error; else eval the sub-expression,
        -- then it++ and dereference with NO end check (the source checks
        -- isCloseBracket() without testing it == tokens.end()).
        if i + 1 = tokens.length then .ok (.errR "Expected something after an Open Bracket", i + 1)
        else
          match evalF f tokens (i + 1) vals with
          | .spin => .spin
          | .ub => .ub
          | .ok (right, j) =>
            match tokens[j + 1]? with
            | none => .ub
            | some t2 =>
              if t2.mType = .TT_CloseBracket then .ok (right, j + 1)
              else .ok (.errR "Expected Close Bracket", j + 1)
      | .TT_CloseBracket => .ok (.errR "Unexpected Close Bracket", i)
      | .TT_Space => .ok (.errR "Unexpected Space", i)
      | .TT_Eof => .ok (.errR "Unexpected Eof", i)

/-- Mirrors `eval(tokens, it, literals, depth)`: evaluate the first
clause (with no error check afterwards, exactly as the source), advance
the iterator, and if it is not exactly at `tokens.end()` enter the
connective loop. -/
def evalF : Nat → List Token → Nat → List Bool → Res (EvalResult × Nat)
  | 0, _, _, _ => .spin
  | f + 1, tokens, i, vals =>
    match evalClauseF f tokens i vals with
    | .spin => .spin
    | .ub => .ub
    | .ok (r, j) =>
      if j + 1 = tokens.length then .ok (r, j + 1)
      else evalLoopF f tokens r (j + 1) vals

/-- Mirrors the `for (; it != tokens.end(); it++)` loop of `eval`, with
the accumulated result `r` and the loop iterator `j`.  A position past
`tokens.length` fails the `!=` test and is dereferenced (`Res.ub`), as
in the source.  The close-bracket arm ungets (`it--`).  The combine
step reads `result.getBool()` and `right.getBool()`; a read of an
unset `mBoolResult` (possible for `r` when the first clause produced an
error, since the source never rechecks) is an uninitialized read,
modelled as `Res.ub`.  `setBool` clears any pending error, exactly as
the source does. -/
def evalLoopF : Nat → List Token → EvalResult → Nat → List Bool → Res (EvalResult × Nat)
  | 0, _, _, _, _ => .spin
  | f + 1, tokens, r, j, vals =>
    if j = tokens.length then .ok (r, j)
    else
      match tokens[j]? with
      | none => .ub
      | some t =>
        if t.mType = .TT_CloseBracket then .ok (r, j - 1)
        else if t.mType ≠ .TT_And ∧ t.mType ≠ .TT_Or then
          .ok (r.setError ("Unexpected " ++ t.toString ++ " -- Only And/Or can connect clauses"), j)
        else if j + 1 = tokens.length then
          .ok (r.setError "Expected something after an And/Or", j + 1)
        else
          match evalClauseF f tokens (j + 1) vals with
          | .spin => .spin
          | .ub => .ub
          | .ok (right, k) =>
            if right.isError then .ok (right, k)
            else
              match r.mBoolResult, right.mBoolResult with
              | some lb, some rb =>
                evalLoopF f tokens
                  (.boolR (if t.mType = .TT_And then lb && rb else lb || rb)) (k + 1) vals
              | _, _ => .ub

end

/-- Canonical fuel for the evaluator: ample for the recursion depth of
`eval`/`evalClause` on a token vector of this length. -/
def evalFuel (tokens : List Token) : Nat := 2 * tokens.length + 4

/-- Mirrors `evalMain`: start `eval` with the iterator at
`tokens.begin()`.  The `gnEvals` counter and progress printing are
diagnostics with no effect on results and are omitted. -/
def evalMain (tokens : List Token) (w : WorkingValues) : Res (EvalResult × Nat) :=
  evalF (evalFuel tokens) tokens 0 w.mValues

/-- Mirrors `findLitName`: index of the first name equal (`strcmp`) to
the target, `-1` when absent. -/
def findLitName (litnames : List String) (target : String) : Int :=
  match litnames.findIdx? (· == target) with
  | some i => (i : Int)
  | none => -1

/-- Mirrors `getLitNames`: collect distinct literal names in
first-occurrence order. -/
def getLitNames (tokens : List Token) : List String :=
  tokens.foldl
    (fun acc t =>
      if t.mType = .TT_Literal ∧ findLitName acc t.mLiteral < 0 then acc ++ [t.mLiteral]
      else acc) []

/-- Mirrors `assignLiteralIndexes`: give each literal token the index of
its name in the registry (tokens whose name is absent are skipped, as in
the source's `continue`). -/
def assignLiteralIndexes (tokens : List Token) (litnames : List String) : List Token :=
  tokens.map (fun t =>
    if t.mType = .TT_Literal ∧ 0 ≤ findLitName litnames t.mLiteral then
      { t with mLitIndex := findLitName litnames t.mLiteral }
    else t)

/-- Mirrors `class SolveResult`: satisfied flag, error string (`isError`
means nonempty) and the witness working values. -/
structure SolveResult where
  mSatisfied : Bool
  mError : String
  mLiterals : WorkingValues
deriving DecidableEq, Repr

/-- `SolveResult::isError`. -/
def SolveResult.isError (s : SolveResult) : Bool := s.mError != ""

/-- `SolveResult::isSatisfied`. -/
def SolveResult.isSatisfied (s : SolveResult) : Bool := s.mSatisfied

/-- The `SolveResult()` constructor: not satisfied, error `"Not run
yet"`, default (empty) working values.  This is also what `solve`
returns at a dead-end leaf (`sizeThawed == 0`), since the source never
clears the error on that path. -/
def SolveResult.initS : SolveResult := ⟨false, "Not run yet", .empty⟩

/-- `SolveResult::setUnsat` applied to a fresh result. -/
def SolveResult.unsatS : SolveResult := ⟨false, "", .empty⟩

/-- `SolveResult::setSatisfied` applied to a fresh result. -/
def SolveResult.satisfiedS (w : WorkingValues) : SolveResult := ⟨true, "", w⟩

/-- `SolveResult::setError` applied to a fresh result. -/
def SolveResult.errorS (msg : String) : SolveResult := ⟨false, msg, .empty⟩

/-- One recursion step of the search: `litNew.advance(literals)` then
`litNew.setFrozenLastBool(b)` — the state `solve` recurses on. -/
def WorkingValues.child (w : WorkingValues) (b : Bool) : WorkingValues :=
  w.advance.setFrozenLastBool b

/-- The thawed size strictly drops (by exactly one) on each search
step. -/
theorem WorkingValues.sizeThawed_child (w : WorkingValues) (b : Bool)
    (h : w.sizeThawed ≠ 0) : (w.child b).sizeThawed + 1 = w.sizeThawed := by
  obtain ⟨vals, s⟩ := w
  simp only [WorkingValues.sizeThawed, WorkingValues.child, WorkingValues.advance,
    WorkingValues.setFrozenLastBool, List.isEmpty_iff_length_eq_zero] at h ⊢
  rw [List.length_set]
  by_cases he : vals.length = 0
  · simp [he] at h
  · by_cases hs : s < 0
    · simp [he, hs] at h
    · push_neg at hs
      obtain ⟨m, rfl⟩ := Int.eq_ofNat_of_zero_le hs
      have hms : ¬ ((m : Int) < 0) := by omega
      have hnn : ¬ ((m : Int) + 1 < 0) := by omega
      have h1 : ((m : Int) + 1).toNat = m + 1 := by omega
      have h0 : ((m : Int)).toNat = m := by omega
      simp only [he, hms, hnn, or_self, if_false, false_or, h0, h1] at h ⊢
      omega

theorem WorkingValues.sizeThawed_child_lt (w : WorkingValues) (b : Bool)
    (h : w.sizeThawed ≠ 0) : (w.child b).sizeThawed < w.sizeThawed := by
  have := WorkingValues.sizeThawed_child w b h
  omega

/-- Mirrors `solve(tokens, literals, depth)`: evaluate under the current
working values; an evaluation error becomes a `SolveResult` error; a
`true` result is satisfied with the current values as witness; a `false`
result at a dead end (`sizeThawed == 0`) returns the fresh
`SolveResult` (still flagged with the `"Not run yet"` error, as in the
source); otherwise branch on the first thawed literal, trying `true`
before `false` (`gBools = { true, false }`) and returning the first
satisfied child immediately.  `isSatisfied` of the evaluation result is
`getBool()`, a read of `mBoolResult`; reading it unset would be an
uninitialized read (`Res.ub`), though that cannot happen after a
non-error evaluation.  The fuel argument bounds the model's recursion
depth only; each recursive call strictly decreases `sizeThawed`
(`WorkingValues.sizeThawed_child`), so `sizeThawed + 1` is always
enough (`solveF_fuel_irrel`). -/
def solveF : Nat → List Token → WorkingValues → Res SolveResult
  | 0, _, _ => .spin
  | fuel + 1, tokens, w =>
    match evalMain tokens w with
    | .spin => .spin
    | .ub => .ub
    | .ok (er, _) =>
      if er.isError then .ok (.errorS er.mError)
      else
        match er.mBoolResult with
        | none => .ub
        | some true => .ok (.satisfiedS w)
        | some false =>
          if w.sizeThawed = 0 then .ok .initS
          else
            match solveF fuel tokens (w.child true) with
            | .spin => .spin
            | .ub => .ub
            | .ok rT =>
              if rT.isSatisfied then .ok rT
              else
                match solveF fuel tokens (w.child false) with
                | .spin => .spin
                | .ub => .ub
                | .ok rF => if rF.isSatisfied then .ok rF else .ok .unsatS

/-- The search at its natural recursion bound: `sizeThawed` drops by one
per recursive call, so `sizeThawed + 1` nested calls always suffice. -/
def solve (tokens : List Token) (w : WorkingValues) : Res SolveResult :=
  solveF (w.sizeThawed + 1) tokens w

/-!  Shape of an evaluation outcome: everything except the boolean
values — the error string, whether the boolean field is initialized,
and the final iterator position.  The evaluator's control flow never
consults a literal's boolean value, so the shape depends only on the
token sequence and the length of the value vector. -/

/-- Forget the boolean payload of an evaluation outcome, keeping the
error string, the definedness of the boolean field, and the final
iterator position. -/
def resShape : Res (EvalResult × Nat) → Res (String × Bool × Nat)
  | .ok (r, j) => .ok (r.mError, r.mBoolResult.isSome, j)
  | .ub => .ub
  | .spin => .spin

theorem resShape_cases {a b : Res (EvalResult × Nat)} (h : resShape a = resShape b) :
    (a = .ub ∧ b = .ub) ∨ (a = .spin ∧ b = .spin) ∨
    (∃ r1 r2 j, a = .ok (r1, j) ∧ b = .ok (r2, j) ∧ r1.mError = r2.mError ∧
      r1.mBoolResult.isSome = r2.mBoolResult.isSome) := by
  cases a with
  | ub => cases b with
    | ub => exact Or.inl ⟨rfl, rfl⟩
    | spin => simp [resShape] at h
    | ok p => obtain ⟨r, j⟩ := p; simp [resShape] at h
  | spin => cases b with
    | ub => simp [resShape] at h
    | spin => exact Or.inr (Or.inl ⟨rfl, rfl⟩)
    | ok p => obtain ⟨r, j⟩ := p; simp [resShape] at h
  | ok p =>
    obtain ⟨r1, j1⟩ := p
    cases b with
    | ub => simp [resShape] at h
    | spin => simp [resShape] at h
    | ok q =>
      obtain ⟨r2, j2⟩ := q
      simp only [resShape, Res.ok.injEq, Prod.mk.injEq] at h
      exact Or.inr (Or.inr ⟨r1, r2, j1, rfl, by rw [h.2.2], h.1, h.2.1⟩)

/-- Control flow of the evaluator is independent of the boolean values:
over value vectors of equal length, `evalClause`, `eval` and the
connective loop produce outcomes of identical shape (same error string,
same definedness, same final cursor).  For the loop, the accumulated
results may differ in their boolean value but must agree on error and
definedness. -/
theorem eval_shape_eq (f : Nat) (tokens : List Token) :
    (∀ i (v1 v2 : List Bool), v1.length = v2.length →
      resShape (evalClauseF f tokens i v1) = resShape (evalClauseF f tokens i v2)) ∧
    (∀ i (v1 v2 : List Bool), v1.length = v2.length →
      resShape (evalF f tokens i v1) = resShape (evalF f tokens i v2)) ∧
    (∀ (r1 r2 : EvalResult) j (v1 v2 : List Bool), v1.length = v2.length →
      r1.mError = r2.mError → r1.mBoolResult.isSome = r2.mBoolResult.isSome →
      resShape (evalLoopF f tokens r1 j v1) = resShape (evalLoopF f tokens r2 j v2)) := by
  induction f with
  | zero => exact ⟨fun _ _ _ _ => rfl, fun _ _ _ _ => rfl, fun _ _ _ _ _ _ _ _ => rfl⟩
  | succ f ih =>
    obtain ⟨ihC, ihE, ihL⟩ := ih
    refine ⟨?_, ?_, ?_⟩
    · intro i v1 v2 hlen
      simp only [evalClauseF]
      cases htok : tokens[i]? with
      | none => rfl
      | some t =>
        obtain ⟨ty, tlit, tidx⟩ := t
        cases ty with
        | TT_Unknown => rfl
        | TT_And => rfl
        | TT_Or => rfl
        | TT_CloseBracket => rfl
        | TT_Space => rfl
        | TT_Eof => rfl
        | TT_Not =>
          by_cases hend : i + 1 = tokens.length
          · simp only [if_pos hend]
          · simp only [if_neg hend]
            rcases resShape_cases (ihC (i + 1) v1 v2 hlen) with
              ⟨h1, h2⟩ | ⟨h1, h2⟩ | ⟨ra, rb, k, h1, h2, herr, hsome⟩
            · rw [h1, h2]
            · rw [h1, h2]
            · rw [h1, h2]
              dsimp only
              have hie : ra.isError = rb.isError := by
                simp [EvalResult.isError, herr]
              rw [hie]
              by_cases he : rb.isError = true
              · simp only [if_pos he]
                simp [resShape, herr, hsome]
              · simp only [if_neg he]
                cases hra : ra.mBoolResult with
                | none =>
                  cases hrb : rb.mBoolResult with
                  | none => rfl
                  | some b => rw [hra, hrb] at hsome; simp at hsome
                | some a =>
                  cases hrb : rb.mBoolResult with
                  | none => rw [hra, hrb] at hsome; simp at hsome
                  | some b => simp [resShape, EvalResult.boolR]
        | TT_Literal =>
          by_cases hidx : tidx < 0
          · simp only [if_pos hidx]
          · simp only [if_neg hidx]
            cases hv1 : v1[tidx.toNat]? with
            | none =>
              cases hv2 : v2[tidx.toNat]? with
              | none => rfl
              | some b =>
                rw [List.getElem?_eq_none_iff] at hv1
                obtain ⟨hlt, _⟩ := List.getElem?_eq_some.mp hv2
                exfalso; omega
            | some a =>
              cases hv2 : v2[tidx.toNat]? with
              | none =>
                rw [List.getElem?_eq_none_iff] at hv2
                obtain ⟨hlt, _⟩ := List.getElem?_eq_some.mp hv1
                exfalso; omega
              | some b => simp [resShape, EvalResult.boolR]
        | TT_OpenBracket =>
          by_cases hend : i + 1 = tokens.length
          · simp only [if_pos hend]
          · simp only [if_neg hend]
            rcases resShape_cases (ihE (i + 1) v1 v2 hlen) with
              ⟨h1, h2⟩ | ⟨h1, h2⟩ | ⟨ra, rb, k, h1, h2, herr, hsome⟩
            · rw [h1, h2]
            · rw [h1, h2]
            · rw [h1, h2]
              dsimp only
              cases h2t : tokens[k + 1]? with
              | none => rfl
              | some t2 =>
                by_cases hcb : t2.mType = .TT_CloseBracket
                · simp only [if_pos hcb]
                  simp [resShape, herr, hsome]
                · simp only [if_neg hcb]
    · intro i v1 v2 hlen
      simp only [evalF]
      rcases resShape_cases (ihC i v1 v2 hlen) with
        ⟨h1, h2⟩ | ⟨h1, h2⟩ | ⟨ra, rb, k, h1, h2, herr, hsome⟩
      · rw [h1, h2]
      · rw [h1, h2]
      · rw [h1, h2]
        dsimp only
        by_cases hend : k + 1 = tokens.length
        · simp only [if_pos hend]
          simp [resShape, herr, hsome]
        · simp only [if_neg hend]
          exact ihL ra rb (k + 1) v1 v2 hlen herr hsome
    · intro r1 r2 j v1 v2 hlen herr hsome
      simp only [evalLoopF]
      by_cases hend : j = tokens.length
      · simp only [if_pos hend]
        simp [resShape, herr, hsome]
      · simp only [if_neg hend]
        cases htok : tokens[j]? with
        | none => rfl
        | some t =>
          by_cases hcb : t.mType = .TT_CloseBracket
          · simp only [if_pos hcb]
            simp [resShape, herr, hsome]
          · simp only [if_neg hcb]
            by_cases hao : t.mType ≠ .TT_And ∧ t.mType ≠ .TT_Or
            · simp only [if_pos hao]
              simp [resShape, EvalResult.setError, herr, hsome]
            · simp only [if_neg hao]
              by_cases hend2 : j + 1 = tokens.length
              · simp only [if_pos hend2]
                simp [resShape, EvalResult.setError, herr, hsome]
              · simp only [if_neg hend2]
                rcases resShape_cases (ihC (j + 1) v1 v2 hlen) with
                  ⟨h1, h2⟩ | ⟨h1, h2⟩ | ⟨ra, rb, k, h1, h2, herr2, hsome2⟩
                · rw [h1, h2]
                · rw [h1, h2]
                · rw [h1, h2]
                  dsimp only
                  have hie : ra.isError = rb.isError := by
                    simp [EvalResult.isError, herr2]
                  rw [hie]
                  by_cases he : rb.isError = true
                  · simp only [if_pos he]
                    simp [resShape, herr2, hsome2]
                  · simp only [if_neg he]
                    cases hx1 : r1.mBoolResult with
                    | none =>
                      cases hx2 : r2.mBoolResult with
                      | none =>
                        cases ra.mBoolResult <;> cases rb.mBoolResult <;> rfl
                      | some b => rw [hx1, hx2] at hsome; simp at hsome
                    | some a =>
                      cases hx2 : r2.mBoolResult with
                      | none => rw [hx1, hx2] at hsome; simp at hsome
                      | some b =>
                        cases hy1 : ra.mBoolResult with
                        | none =>
                          cases hy2 : rb.mBoolResult with
                          | none => rfl
                          | some c => rw [hy1, hy2] at hsome2; simp at hsome2
                        | some c =>
                          cases hy2 : rb.mBoolResult with
                          | none => rw [hy1, hy2] at hsome2; simp at hsome2
                          | some d =>
                            exact ihL _ _ (k + 1) v1 v2 hlen rfl rfl

/-- `evalMain` outcome shape (error string, boolean definedness, final
cursor) depends only on the token sequence and the length of the value
vector, not on the boolean values themselves. -/
theorem evalMain_shape_eq (tokens : List Token) (w1 w2 : WorkingValues)
    (hlen : w1.mValues.length = w2.mValues.length) :
    resShape (evalMain tokens w1) = resShape (evalMain tokens w2) :=
  (eval_shape_eq (evalFuel tokens) tokens).2.1 0 w1.mValues w2.mValues hlen

/-- All literals in the thawed region carry the default value `false`. -/
def WorkingValues.thawedAllFalse (w : WorkingValues) : Prop :=
  ∀ i, i < w.mValues.length → w.mStartOfThawed.toNat ≤ i → w.mValues[i]? = some false

instance (w : WorkingValues) : Decidable w.thawedAllFalse := by
  unfold WorkingValues.thawedAllFalse
  exact Nat.decidableBallLT _ _

/-- The search step written with the write index simplified:
`advance` then `setFrozenLastBool b` writes position `mStartOfThawed`
(the first thawed literal) and moves the boundary one right. -/
theorem WorkingValues.child_eq (w : WorkingValues) (b : Bool) :
    w.child b = ⟨w.mValues.set w.mStartOfThawed.toNat b, w.mStartOfThawed + 1⟩ := by
  simp [WorkingValues.child, WorkingValues.advance, WorkingValues.setFrozenLastBool]

/-- A state with thawed literals left has the boundary in bounds. -/
theorem WorkingValues.sizeThawed_pos_facts (w : WorkingValues) (hz : w.sizeThawed ≠ 0) :
    0 ≤ w.mStartOfThawed ∧ w.mStartOfThawed.toNat < w.mValues.length := by
  unfold WorkingValues.sizeThawed at hz
  split at hz
  · simp at hz
  · rename_i h
    push_neg at h
    exact ⟨h.2, by omega⟩

theorem WorkingValues.thawedAllFalse_child (w : WorkingValues) (b : Bool)
    (hz : w.sizeThawed ≠ 0) (h : w.thawedAllFalse) : (w.child b).thawedAllFalse := by
  obtain ⟨hs0, hlt⟩ := w.sizeThawed_pos_facts hz
  rw [WorkingValues.child_eq]
  intro i hi hle
  have hi' : i < w.mValues.length := by
    simpa using hi
  have hle' : (w.mStartOfThawed + 1).toNat ≤ i := hle
  have ht : (w.mStartOfThawed + 1).toNat = w.mStartOfThawed.toNat + 1 := by omega
  show (w.mValues.set w.mStartOfThawed.toNat b)[i]? = some false
  rw [List.getElem?_set_ne (by omega)]
  exact h i hi' (by omega)

theorem WorkingValues.thawedAllFalse_init (n : Nat) :
    (WorkingValues.init n).thawedAllFalse := by
  intro i hi _
  simp only [WorkingValues.init, List.length_replicate] at hi
  simp [WorkingValues.init, List.getElem?_replicate, hi]

/-- Soundness of satisfied results at every fuel: a satisfied
`SolveResult` carries exactly the working values its own node evaluated
to `true`, so the formula evaluates to `true` under them; the all-false
thawed suffix is preserved down every branch. -/
theorem solveF_satisfied_sound (tokens : List Token) :
    ∀ fuel (w : WorkingValues) (r : SolveResult), w.thawedAllFalse →
      solveF fuel tokens w = .ok r → r.mSatisfied = true →
      (∃ p, evalMain tokens r.mLiterals = .ok (.boolR true, p)) ∧
        r.mLiterals.thawedAllFalse := by
  intro fuel
  induction fuel with
  | zero => intro w r _ hs _; simp [solveF] at hs
  | succ fuel ih =>
    intro w r hthawed hs hsat
    unfold solveF at hs
    cases hev : evalMain tokens w with
    | spin => rw [hev] at hs; simp at hs
    | ub => rw [hev] at hs; simp at hs
    | ok p =>
      obtain ⟨er, pos⟩ := p
      rw [hev] at hs
      dsimp only at hs
      by_cases herr : er.isError = true
      · rw [if_pos herr] at hs
        simp only [Res.ok.injEq] at hs
        rw [← hs] at hsat
        simp [SolveResult.errorS] at hsat
      · rw [if_neg herr] at hs
        cases hbool : er.mBoolResult with
        | none => rw [hbool] at hs; simp at hs
        | some b =>
          rw [hbool] at hs
          cases b with
          | true =>
            dsimp only at hs
            simp only [Res.ok.injEq] at hs
            rw [← hs]
            have hmerr : er.mError = "" := by
              simpa [EvalResult.isError] using herr
            have her : er = .boolR true := by
              obtain ⟨ob, oe⟩ := er
              simp only at hmerr hbool
              rw [hmerr, hbool]
              rfl
            refine ⟨⟨pos, ?_⟩, hthawed⟩
            show evalMain tokens w = .ok (.boolR true, pos)
            rw [hev, her]
          | false =>
            dsimp only at hs
            by_cases hz : w.sizeThawed = 0
            · rw [if_pos hz] at hs
              simp only [Res.ok.injEq] at hs
              rw [← hs] at hsat
              simp [SolveResult.initS] at hsat
            · rw [if_neg hz] at hs
              cases hT : solveF fuel tokens (w.child true) with
              | spin => rw [hT] at hs; simp at hs
              | ub => rw [hT] at hs; simp at hs
              | ok rT =>
                rw [hT] at hs
                dsimp only at hs
                by_cases hsT : rT.isSatisfied = true
                · rw [if_pos hsT] at hs
                  simp only [Res.ok.injEq] at hs
                  rw [← hs]
                  exact ih (w.child true) rT
                    (w.thawedAllFalse_child true hz hthawed) hT hsT
                · rw [if_neg hsT] at hs
                  cases hF : solveF fuel tokens (w.child false) with
                  | spin => rw [hF] at hs; simp at hs
                  | ub => rw [hF] at hs; simp at hs
                  | ok rF =>
                    rw [hF] at hs
                    dsimp only at hs
                    by_cases hsF : rF.isSatisfied = true
                    · rw [if_pos hsF] at hs
                      simp only [Res.ok.injEq] at hs
                      rw [← hs]
                      exact ih (w.child false) rF
                        (w.thawedAllFalse_child false hz hthawed) hF hsF
                    · rw [if_neg hsF] at hs
                      simp only [Res.ok.injEq] at hs
                      rw [← hs] at hsat
                      simp [SolveResult.unsatS] at hsat

/-- C1 — soundness of the satisfied verdict: starting from any state
whose thawed region is all-false (in particular the initial all-thawed
state), if `solve` returns a satisfied result carrying `mLiterals = A`,
then evaluating the token sequence under `A` yields the boolean `true`
(no error), and every literal still thawed in `A` is reported `false`
by `A`. -/
theorem c1_satisfied_sound (tokens : List Token) (w : WorkingValues) (r : SolveResult)
    (hthawed : w.thawedAllFalse) (hs : solve tokens w = .ok r) (hsat : r.mSatisfied = true) :
    (∃ p, evalMain tokens r.mLiterals = .ok (.boolR true, p)) ∧
      r.mLiterals.thawedAllFalse :=
  solveF_satisfied_sound tokens (w.sizeThawed + 1) w r hthawed hs hsat

theorem WorkingValues.child_length (w : WorkingValues) (b : Bool) :
    (w.child b).mValues.length = w.mValues.length := by
  rw [WorkingValues.child_eq]
  exact List.length_set w.mValues _ b

/-- A `solve` node that came back neither satisfied nor error-flagged
evaluated its own working values to `false`. -/
theorem solveF_unsat_root (tokens : List Token) (fuel : Nat) (w : WorkingValues)
    (r : SolveResult) (hs : solveF fuel tokens w = .ok r) (hnsat : r.mSatisfied = false)
    (hnerr : r.mError = "") : ∃ p, evalMain tokens w = .ok (.boolR false, p) := by
  cases fuel with
  | zero => simp [solveF] at hs
  | succ fuel =>
    unfold solveF at hs
    cases hev : evalMain tokens w with
    | spin => rw [hev] at hs; simp at hs
    | ub => rw [hev] at hs; simp at hs
    | ok q =>
      obtain ⟨er, p⟩ := q
      rw [hev] at hs
      dsimp only at hs
      by_cases herr : er.isError = true
      · rw [if_pos herr] at hs
        simp only [Res.ok.injEq] at hs
        rw [← hs] at hnerr
        simp only [SolveResult.errorS] at hnerr
        simp [EvalResult.isError, hnerr] at herr
      · rw [if_neg herr] at hs
        have hmerr : er.mError = "" := by simpa [EvalResult.isError] using herr
        cases hbool : er.mBoolResult with
        | none => rw [hbool] at hs; simp at hs
        | some b =>
          rw [hbool] at hs
          cases b with
          | true =>
            dsimp only at hs
            simp only [Res.ok.injEq] at hs
            rw [← hs] at hnsat
            simp [SolveResult.satisfiedS] at hnsat
          | false =>
            refine ⟨p, ?_⟩
            obtain ⟨ob, oe⟩ := er
            simp only at hmerr hbool
            rw [hmerr, hbool]
            rfl

/-- A child that `solve` explored without finding satisfaction, whose
own evaluation is known (via the shape argument) to be error-free and
defined, must have evaluated to `false`. -/
theorem solveF_not_satisfied_eval_false (tokens : List Token) (fuel : Nat)
    (w : WorkingValues) (r : SolveResult) (er : EvalResult) (p : Nat)
    (hs : solveF fuel tokens w = .ok r) (hnsat : r.mSatisfied = false)
    (hev : evalMain tokens w = .ok (er, p)) (hmerr : er.mError = "")
    (hsome : er.mBoolResult.isSome = true) : er.mBoolResult = some false := by
  cases fuel with
  | zero => simp [solveF] at hs
  | succ fuel =>
    unfold solveF at hs
    rw [hev] at hs
    dsimp only at hs
    have herr : ¬ (er.isError = true) := by simp [EvalResult.isError, hmerr]
    rw [if_neg herr] at hs
    cases hbool : er.mBoolResult with
    | none => rw [hbool] at hsome; simp at hsome
    | some b =>
      cases b with
      | false => rfl
      | true =>
        rw [hbool] at hs
        dsimp only at hs
        simp only [Res.ok.injEq] at hs
        rw [← hs] at hnsat
        simp [SolveResult.satisfiedS] at hnsat

/-- Descent step for the coverage argument: an assignment that agrees
with a node's frozen prefix and carries `b` at the first thawed literal
agrees with the `b`-child's frozen prefix; combined with the shape
argument (the child's evaluation has the same error status and cursor
as the node's) this pushes the coverage induction hypothesis through
one branch of the search. -/
theorem solveF_coverage_child (tokens : List Token) (fuel : Nat)
    (ih : ∀ (w : WorkingValues) (r : SolveResult) (er : EvalResult) (p : Nat),
      solveF fuel tokens w = .ok r → r.mSatisfied = false →
      evalMain tokens w = .ok (er, p) → er.mError = "" → er.mBoolResult = some false →
      (0 ≤ w.mStartOfThawed ∨ w.mValues = []) →
      ∀ v : List Bool, v.length = w.mValues.length →
        (∀ i, i < w.mStartOfThawed.toNat → v[i]? = w.mValues[i]?) →
        evalF (evalFuel tokens) tokens 0 v = .ok (.boolR false, p))
    (w : WorkingValues) (rb : SolveResult) (er : EvalResult) (p : Nat) (b : Bool)
    (hT : solveF fuel tokens (w.child b) = .ok rb) (hnsatb : rb.mSatisfied = false)
    (hev : evalMain tokens w = .ok (er, p)) (hmerr : er.mError = "")
    (hbool : er.mBoolResult = some false)
    (hge : 0 ≤ w.mStartOfThawed) (hlt : w.mStartOfThawed.toNat < w.mValues.length)
    (v : List Bool) (hvlen : v.length = w.mValues.length)
    (hagree : ∀ i, i < w.mStartOfThawed.toNat → v[i]? = w.mValues[i]?)
    (hvb : v[w.mStartOfThawed.toNat]? = some b) :
    evalF (evalFuel tokens) tokens 0 v = .ok (.boolR false, p) := by
  have hchildlen : (w.child b).mValues.length = w.mValues.length := w.child_length b
  have hsh := evalMain_shape_eq tokens (w.child b) w (by rw [hchildlen])
  rcases resShape_cases hsh with ⟨h1, h2⟩ | ⟨h1, h2⟩ | ⟨erc, erw, pc, h1, h2, herr2, hsome2⟩
  · rw [h2] at hev; simp at hev
  · rw [h2] at hev; simp at hev
  · rw [hev] at h2
    simp only [Res.ok.injEq, Prod.mk.injEq] at h2
    obtain ⟨her2, hp2⟩ := h2
    subst her2
    subst hp2
    have hmerrc : erc.mError = "" := by rw [herr2, hmerr]
    have hsomec : erc.mBoolResult.isSome = true := by rw [hsome2, hbool]; rfl
    have hbc : erc.mBoolResult = some false :=
      solveF_not_satisfied_eval_false tokens fuel (w.child b) rb erc p hT hnsatb h1 hmerrc hsomec
    have hercval : erc = .boolR false := by
      obtain ⟨ob, oe⟩ := erc
      simp only at hmerrc hbc
      rw [hmerrc, hbc]
      rfl
    refine ih (w.child b) rb (.boolR false) p hT hnsatb (by rw [← hercval]; exact h1) rfl rfl
      ?_ v ?_ ?_
    · left
      rw [WorkingValues.child_eq]
      show (0:Int) ≤ w.mStartOfThawed + 1
      omega
    · rw [hchildlen]
      exact hvlen
    · intro i hi
      have hi' : i < (w.mStartOfThawed + 1).toNat := by
        rw [WorkingValues.child_eq] at hi
        exact hi
      have hi2 : i < w.mStartOfThawed.toNat + 1 := by omega
      rw [WorkingValues.child_eq]
      show v[i]? = (w.mValues.set w.mStartOfThawed.toNat b)[i]?
      by_cases hieq : i = w.mStartOfThawed.toNat
      · rw [hieq, List.getElem?_set_self hlt]
        rw [← hieq, hieq]
        exact hvb
      · rw [List.getElem?_set_ne (fun hh => hieq hh.symm)]
        exact hagree i (by omega)

/-- Exhaustiveness of the search below one node: if `solve` explored a
node (whose own evaluation returned `false`) and came back not
satisfied, then every total assignment that agrees with the node's
frozen prefix evaluates the formula to `false`. -/
theorem solveF_unsat_coverage (tokens : List Token) :
    ∀ fuel (w : WorkingValues) (r : SolveResult) (er : EvalResult) (p : Nat),
      solveF fuel tokens w = .ok r → r.mSatisfied = false →
      evalMain tokens w = .ok (er, p) → er.mError = "" → er.mBoolResult = some false →
      (0 ≤ w.mStartOfThawed ∨ w.mValues = []) →
      ∀ v : List Bool, v.length = w.mValues.length →
        (∀ i, i < w.mStartOfThawed.toNat → v[i]? = w.mValues[i]?) →
        evalF (evalFuel tokens) tokens 0 v = .ok (.boolR false, p) := by
  intro fuel
  induction fuel with
  | zero => intro w r er p hs; simp [solveF] at hs
  | succ fuel ih =>
    intro w r er p hs hnsat hev hmerr hbool hsot v hvlen hagree
    have herval : er = .boolR false := by
      obtain ⟨ob, oe⟩ := er
      simp only at hmerr hbool
      rw [hmerr, hbool]
      rfl
    by_cases hz : w.sizeThawed = 0
    · -- dead end: the frozen prefix covers everything, so v is exactly
      -- the node's working values and the node's own evaluation decides v
      have hveq : v = w.mValues := by
        apply List.ext_getElem?
        intro i
        by_cases hi : i < w.mValues.length
        · have hge : 0 ≤ w.mStartOfThawed := by
            rcases hsot with hge | hemp
            · exact hge
            · rw [hemp] at hi; simp at hi
          have hne : ¬ (w.mValues.isEmpty = true ∨ w.mStartOfThawed < 0) := by
            rw [List.isEmpty_iff_length_eq_zero]
            push_neg
            exact ⟨by omega, by omega⟩
          unfold WorkingValues.sizeThawed at hz
          rw [if_neg hne] at hz
          exact hagree i (by omega)
        · push_neg at hi
          rw [List.getElem?_eq_none hi, List.getElem?_eq_none (by omega)]
      rw [hveq]
      show evalMain tokens w = .ok (.boolR false, p)
      rw [hev, herval]
    · -- branch node: both children were explored and neither satisfied
      obtain ⟨hge, hlt⟩ := w.sizeThawed_pos_facts hz
      unfold solveF at hs
      rw [hev] at hs
      dsimp only at hs
      have herrb : ¬ (er.isError = true) := by simp [EvalResult.isError, hmerr]
      rw [if_neg herrb, hbool] at hs
      dsimp only at hs
      rw [if_neg hz] at hs
      cases hT : solveF fuel tokens (w.child true) with
      | spin => rw [hT] at hs; simp at hs
      | ub => rw [hT] at hs; simp at hs
      | ok rT =>
        rw [hT] at hs
        dsimp only at hs
        by_cases hsT : rT.isSatisfied = true
        · rw [if_pos hsT] at hs
          simp only [Res.ok.injEq] at hs
          rw [← hs] at hnsat
          rw [SolveResult.isSatisfied, hnsat] at hsT
          simp at hsT
        · rw [if_neg hsT] at hs
          cases hF : solveF fuel tokens (w.child false) with
          | spin => rw [hF] at hs; simp at hs
          | ub => rw [hF] at hs; simp at hs
          | ok rF =>
            rw [hF] at hs
            dsimp only at hs
            by_cases hsF : rF.isSatisfied = true
            · rw [if_pos hsF] at hs
              simp only [Res.ok.injEq] at hs
              rw [← hs] at hnsat
              rw [SolveResult.isSatisfied, hnsat] at hsF
              simp at hsF
            · -- the branch value v carries at the first thawed literal
              have hidx : w.mStartOfThawed.toNat < v.length := by omega
              obtain ⟨vb, hvb⟩ : ∃ vb, v[w.mStartOfThawed.toNat]? = some vb :=
                ⟨v[w.mStartOfThawed.toNat], List.getElem?_eq_getElem hidx⟩
              cases vb with
              | true =>
                exact solveF_coverage_child tokens fuel ih w rT er p true hT
                  (by simpa [SolveResult.isSatisfied] using hsT) hev hmerr hbool hge hlt
                  v hvlen hagree hvb
              | false =>
                exact solveF_coverage_child tokens fuel ih w rF er p false hF
                  (by simpa [SolveResult.isSatisfied] using hsF) hev hmerr hbool hge hlt
                  v hvlen hagree hvb

/-- C1 witness: the spec's own example `a & ~b` is reported satisfied
with `a = true`, `b = false` (with `b` decided by freezing, not left
thawed), and evaluation under that assignment returns `true`. -/
theorem c1_satisfied_sound_witness :
    (∃ p, evalMain [⟨.TT_Literal, "a", 0⟩, ⟨.TT_And, "", -1⟩, ⟨.TT_Not, "", -1⟩,
        ⟨.TT_Literal, "b", 1⟩]
        (SolveResult.mk true "" ⟨[true, false], 1⟩).mLiterals = .ok (.boolR true, p)) ∧
      (SolveResult.mk true "" ⟨[true, false], 1⟩).mLiterals.thawedAllFalse :=
  c1_satisfied_sound
    [⟨.TT_Literal, "a", 0⟩, ⟨.TT_And, "", -1⟩, ⟨.TT_Not, "", -1⟩, ⟨.TT_Literal, "b", 1⟩]
    (.init 2) ⟨true, "", ⟨[true, false], 1⟩⟩ (by decide) (by decide) (by decide)

/-- Shorthand for an `&` token. -/
def tokAnd : Token := ⟨.TT_And, "", -1⟩

/-- Shorthand for a `|` token. -/
def tokOr : Token := ⟨.TT_Or, "", -1⟩

/-- Shorthand for a `~` token. -/
def tokNot : Token := ⟨.TT_Not, "", -1⟩

/-- Shorthand for a `(` token. -/
def tokOpen : Token := ⟨.TT_OpenBracket, "", -1⟩

/-- Shorthand for a `)` token. -/
def tokClose : Token := ⟨.TT_CloseBracket, "", -1⟩

/-- Shorthand for a resolved literal token. -/
def tokLit (lit : String) (idx : Int) : Token := ⟨.TT_Literal, lit, idx⟩

/-- C2 — completeness of the unsatisfiable verdict: if the top-level
search over the registry of the formula's distinct literals returns a
result that is neither satisfied nor error-flagged, then every total
assignment of booleans to the registry literals evaluates the formula
to `false` — the depth-first enumeration is exhaustive over the boolean
hypercube. -/
theorem c2_unsat_complete (tokens : List Token) (r : SolveResult)
    (hs : solve tokens (.init (getLitNames tokens).length) = .ok r)
    (hnsat : r.mSatisfied = false) (hnerr : r.mError = "") :
    ∀ v : List Bool, v.length = (getLitNames tokens).length →
      ∃ p, evalMain tokens ⟨v, ((getLitNames tokens).length : Int)⟩ =
        .ok (.boolR false, p) := by
  intro v hvlen
  obtain ⟨p, hev⟩ := solveF_unsat_root tokens _ _ r hs hnsat hnerr
  have hinitlen :
      (WorkingValues.init (getLitNames tokens).length).mValues.length =
        (getLitNames tokens).length := by
    simp [WorkingValues.init]
  have hsot0 :
      (WorkingValues.init (getLitNames tokens).length).mStartOfThawed.toNat = 0 := by
    unfold WorkingValues.init
    split <;> rfl
  have hsot : 0 ≤ (WorkingValues.init (getLitNames tokens).length).mStartOfThawed ∨
      (WorkingValues.init (getLitNames tokens).length).mValues = [] := by
    unfold WorkingValues.init
    by_cases h0 : 0 < (getLitNames tokens).length
    · left
      simp [h0]
    · right
      have : (getLitNames tokens).length = 0 := by omega
      simp [this]
  have hcov := solveF_unsat_coverage tokens
    ((WorkingValues.init (getLitNames tokens).length).sizeThawed + 1)
    (WorkingValues.init (getLitNames tokens).length) r (.boolR false) p
    hs hnsat hev rfl rfl hsot v (by rw [hinitlen]; exact hvlen)
    (by intro i hi; rw [hsot0] at hi; omega)
  exact ⟨p, hcov⟩

/-- C2 witness: `x & ~x` is reported unsatisfiable, and indeed the
assignment `x = true` (the one not tried last) evaluates it to
`false`. -/
theorem c2_unsat_complete_witness :
    ∃ p, evalMain [tokLit "x" 0, tokAnd, tokNot, tokLit "x" 0]
      ⟨[true], ((getLitNames [tokLit "x" 0, tokAnd, tokNot, tokLit "x" 0]).length : Int)⟩ =
        .ok (.boolR false, p) :=
  c2_unsat_complete [tokLit "x" 0, tokAnd, tokNot, tokLit "x" 0] .unsatS
    (by decide) (by decide) (by decide) [true] (by decide)

/-- C3 — the evaluator chains `&` and `|` strictly left to right with
no precedence: `a & b | c` computes `(a && b) || c` for every
assignment, and in particular is `false` at `a = false, b = true,
c = false`. -/
theorem c3_left_to_right_no_precedence :
    (∀ a b c : Bool,
      evalMain [tokLit "a" 0, tokAnd, tokLit "b" 1, tokOr, tokLit "c" 2] ⟨[a, b, c], 0⟩ =
        .ok (.boolR ((a && b) || c), 5)) ∧
    evalMain [tokLit "a" 0, tokAnd, tokLit "b" 1, tokOr, tokLit "c" 2]
        ⟨[false, true, false], 0⟩ = .ok (.boolR false, 5) := by
  constructor
  · intro a b c
    cases a <;> cases b <;> cases c <;> decide
  · decide

/-- C5 — no short-circuiting: the connective loop always evaluates the
right-hand clause of an `&`/`|`, whatever boolean the accumulated left
result carries, and returns the right clause's error as the overall
result; in particular `a | ~` errors even when `a` is `true`. -/
theorem c5_no_short_circuit :
    (∀ (f : Nat) (tokens : List Token) (r : EvalResult) (j : Nat) (vals : List Bool)
        (t : Token) (right : EvalResult) (k : Nat),
      tokens[j]? = some t → (t.mType = .TT_And ∨ t.mType = .TT_Or) →
      j ≠ tokens.length → j + 1 ≠ tokens.length →
      evalClauseF f tokens (j + 1) vals = .ok (right, k) → right.isError = true →
      evalLoopF (f + 1) tokens r j vals = .ok (right, k)) ∧
    (∀ b : Bool, evalMain [tokLit "a" 0, tokOr, tokNot] ⟨[b], 0⟩ =
      .ok (.errR "Expected something after a Not", 3)) := by
  constructor
  · intro f tokens r j vals t right k htok hao hj hj1 hclause herr
    unfold evalLoopF
    rw [if_neg hj, htok]
    dsimp only
    have hncb : ¬ (t.mType = .TT_CloseBracket) := by
      rcases hao with h | h <;> rw [h] <;> simp
    rw [if_neg hncb]
    have hnao : ¬ (t.mType ≠ .TT_And ∧ t.mType ≠ .TT_Or) := by
      rcases hao with h | h <;> simp [h]
    rw [if_neg hnao, if_neg hj1, hclause]
    dsimp only
    rw [if_pos herr]
  · intro b
    cases b <;> decide

/-- C5 witness: with the left operand already `true` before an `|`, the
loop still evaluates the right operand `~` (which errors at end of
input) and returns that error. -/
theorem c5_no_short_circuit_witness :
    evalLoopF 2 [tokLit "a" 0, tokOr, tokNot] (.boolR true) 1 [true] =
      .ok (.errR "Expected something after a Not", 3) :=
  c5_no_short_circuit.1 1 [tokLit "a" 0, tokOr, tokNot] (.boolR true) 1 [true] tokOr
    (.errR "Expected something after a Not") 3 (by decide) (Or.inr (by decide))
    (by decide) (by decide) (by decide) (by decide)

/-- C6 — contrary to the claim, a bracketed sub-expression that reaches
the end of the token sequence without a close bracket does not produce
an `EvalResult` error: on `(a` (and even on a bare `(`) the evaluator
increments the iterator past `tokens.end()` and dereferences it, an
out-of-bounds access (undefined behaviour), modelled as `Res.ub`. -/
theorem c6_open_bracket_missing_close_ub :
    evalMain [tokOpen, tokLit "a" 0] (.init 1) = .ub ∧
      evalMain [tokOpen] (.init 1) = .ub := by
  constructor
  · decide
  · decide

/-- Exit code on command-line usage failure: `usage()` calls
`exit(EXIT_COMMAND_LINE_FAIL)`. -/
def EXIT_COMMAND_LINE_FAIL : Nat := 0

/-- `EXIT_CANNOT_READ_INPUT` from the exit-code enum. -/
def EXIT_CANNOT_READ_INPUT : Nat := 1

/-- `EXIT_CANNOT_PARSE_INPUT` from the exit-code enum. -/
def EXIT_CANNOT_PARSE_INPUT : Nat := 3

/-- `EXIT_SATISFIABLE` from the exit-code enum (the documented
divergence from minisat's 10). -/
def EXIT_SATISFIABLE : Nat := 0

/-- `EXIT_SATISFIABLE_MINISAT` from the exit-code enum (unused). -/
def EXIT_SATISFIABLE_MINISAT : Nat := 10

/-- `EXIT_UNSATISFIABLE` from the exit-code enum. -/
def EXIT_UNSATISFIABLE : Nat := 20

/-- The code `usage()` exits with. -/
def usageExitCode : Nat := EXIT_COMMAND_LINE_FAIL

/-- The exit mapping at the end of `solveMain`: error →
`EXIT_CANNOT_PARSE_INPUT`, satisfied → `EXIT_SATISFIABLE`, otherwise
`EXIT_UNSATISFIABLE`. -/
def exitCodeOf (s : SolveResult) : Nat :=
  if s.isError then EXIT_CANNOT_PARSE_INPUT
  else if s.isSatisfied then EXIT_SATISFIABLE
  else EXIT_UNSATISFIABLE

/-- C9 counterexample: the four outcome codes are not mutually
distinguishable — `usage()` exits with `EXIT_COMMAND_LINE_FAIL = 0`,
the very same code as `EXIT_SATISFIABLE`. -/
theorem c9_exit_codes_counterexample :
    usageExitCode = EXIT_SATISFIABLE ∧ usageExitCode = 0 ∧
      ¬ List.Pairwise (· ≠ ·)
        [EXIT_SATISFIABLE, EXIT_UNSATISFIABLE, EXIT_CANNOT_PARSE_INPUT, usageExitCode] := by
  refine ⟨rfl, rfl, ?_⟩
  decide

/-- C9 (amended) — three mutually distinct codes: 0 for satisfiable, 20
for unsatisfiable, 3 for unparseable input; but command-line usage
failure exits with 0, colliding with the satisfiable code, so only
three of the four outcomes are distinguishable. -/
theorem c9_exit_codes_amended :
    (∀ w : WorkingValues, exitCodeOf (.satisfiedS w) = EXIT_SATISFIABLE) ∧
    exitCodeOf .unsatS = EXIT_UNSATISFIABLE ∧
    (∀ msg : String, msg ≠ "" → exitCodeOf (.errorS msg) = EXIT_CANNOT_PARSE_INPUT) ∧
    EXIT_SATISFIABLE = 0 ∧ EXIT_UNSATISFIABLE = 20 ∧ EXIT_CANNOT_PARSE_INPUT = 3 ∧
    List.Pairwise (· ≠ ·) [EXIT_SATISFIABLE, EXIT_UNSATISFIABLE, EXIT_CANNOT_PARSE_INPUT] ∧
    usageExitCode = EXIT_SATISFIABLE := by
  refine ⟨fun w => rfl, rfl, ?_, rfl, rfl, rfl, by decide, rfl⟩
  intro msg h
  simp [exitCodeOf, SolveResult.errorS, SolveResult.isError, h]

/-- C9 (amended) witness: a concrete error result maps to exit code 3. -/
theorem c9_exit_codes_amended_witness :
    exitCodeOf (.errorS "Expected Close Bracket") = EXIT_CANNOT_PARSE_INPUT :=
  c9_exit_codes_amended.2.2.1 "Expected Close Bracket" (by decide)

/-- Every literal token carries a resolved index inside the registry
bounds. -/
def ValidIndexes (tokens : List Token) (n : Nat) : Prop :=
  ∀ t ∈ tokens, t.mType = .TT_Literal → 0 ≤ t.mLitIndex ∧ t.mLitIndex < (n : Int)

instance (tokens : List Token) (n : Nat) : Decidable (ValidIndexes tokens n) := by
  unfold ValidIndexes
  exact List.decidableBAll _ _

/-- C10 — evaluator errors are independent of assignment values: over
any two value vectors of the registry's length, `evalMain` produces
outcomes of identical shape (same error string — or the same
undefined-behaviour/fuel outcome — and the same cursor); in particular
an error under one assignment transfers verbatim to the other, and an
error-free evaluation under one assignment (e.g. the pre-search syntax
check) guarantees error-free evaluation under every other. -/
theorem c10_errors_independent_of_assignment (tokens : List Token) (n : Nat)
    (hval : ValidIndexes tokens n) (w1 w2 : WorkingValues)
    (h1 : w1.mValues.length = n) (h2 : w2.mValues.length = n) :
    resShape (evalMain tokens w1) = resShape (evalMain tokens w2) ∧
    (∀ (er : EvalResult) (p : Nat), evalMain tokens w1 = .ok (er, p) → er.mError ≠ "" →
      ∃ er2, evalMain tokens w2 = .ok (er2, p) ∧ er2.mError = er.mError) ∧
    ((∃ er p, evalMain tokens w1 = .ok (er, p) ∧ er.mError = "") →
      ∃ er p, evalMain tokens w2 = .ok (er, p) ∧ er.mError = "") := by
  have hsh := evalMain_shape_eq tokens w1 w2 (by rw [h1, h2])
  refine ⟨hsh, ?_, ?_⟩
  · intro er p hev _
    rcases resShape_cases hsh with ⟨ha, hb⟩ | ⟨ha, hb⟩ | ⟨ra, rb, j, ha, hb, herr, hsome⟩
    · rw [ha] at hev; simp at hev
    · rw [ha] at hev; simp at hev
    · rw [hev] at ha
      simp only [Res.ok.injEq, Prod.mk.injEq] at ha
      obtain ⟨hra, hpj⟩ := ha
      subst hra
      subst hpj
      exact ⟨rb, hb, herr.symm⟩
  · rintro ⟨er, p, hev, hmerr⟩
    rcases resShape_cases hsh with ⟨ha, hb⟩ | ⟨ha, hb⟩ | ⟨ra, rb, j, ha, hb, herr, hsome⟩
    · rw [ha] at hev; simp at hev
    · rw [ha] at hev; simp at hev
    · rw [hev] at ha
      simp only [Res.ok.injEq, Prod.mk.injEq] at ha
      obtain ⟨hra, hpj⟩ := ha
      subst hra
      subst hpj
      exact ⟨rb, _, hb, herr ▸ hmerr⟩

/-- C10 witness: over the one-literal formula `a`, flipping the
assignment value leaves the outcome shape unchanged. -/
theorem c10_errors_independent_of_assignment_witness :
    resShape (evalMain [tokLit "a" 0] ⟨[true], 0⟩) =
      resShape (evalMain [tokLit "a" 0] ⟨[false], 0⟩) :=
  (c10_errors_independent_of_assignment [tokLit "a" 0] 1 (by decide)
    ⟨[true], 0⟩ ⟨[false], 0⟩ (by decide) (by decide)).1

/-- The spec's `x & y` example tokens, used to exercise the search. -/
def tokensXY : List Token := [tokLit "x" 0, tokAnd, tokLit "y" 1]

/-- C4 — branching order of the search: at a node whose evaluation
returned `false` with thawed literals remaining, the branch writes
exactly position `mStartOfThawed` — the first thawed literal in
registry order — and the search equals "recurse with it frozen `true`;
if that is not satisfied, recurse with it frozen `false`; the first
satisfied child is returned immediately without the second". -/
theorem c4_branching_order (tokens : List Token) (w : WorkingValues) (er : EvalResult)
    (p : Nat) (hev : evalMain tokens w = .ok (er, p)) (hmerr : er.mError = "")
    (hbool : er.mBoolResult = some false) (hz : w.sizeThawed ≠ 0) :
    w.child true = ⟨w.mValues.set w.mStartOfThawed.toNat true, w.mStartOfThawed + 1⟩ ∧
    w.child false = ⟨w.mValues.set w.mStartOfThawed.toNat false, w.mStartOfThawed + 1⟩ ∧
    solve tokens w =
      (match solve tokens (w.child true) with
       | .spin => .spin
       | .ub => .ub
       | .ok rT =>
         if rT.isSatisfied then .ok rT
         else
           match solve tokens (w.child false) with
           | .spin => .spin
           | .ub => .ub
           | .ok rF => if rF.isSatisfied then .ok rF else .ok .unsatS) := by
  refine ⟨WorkingValues.child_eq w true, WorkingValues.child_eq w false, ?_⟩
  show solveF (w.sizeThawed + 1) tokens w = _
  unfold solveF
  rw [hev]
  dsimp only
  have herrb : ¬ (er.isError = true) := by simp [EvalResult.isError, hmerr]
  rw [if_neg herrb, hbool]
  dsimp only
  rw [if_neg hz]
  have hT : solveF w.sizeThawed tokens (w.child true) = solve tokens (w.child true) := by
    unfold solve
    rw [WorkingValues.sizeThawed_child w true hz]
  have hF : solveF w.sizeThawed tokens (w.child false) = solve tokens (w.child false) := by
    unfold solve
    rw [WorkingValues.sizeThawed_child w false hz]
  rw [hT, hF]

/-- C4 witness: on `x & y` from the all-thawed two-literal state, the
characterization holds with the concrete evaluation `false` at cursor
3. -/
theorem c4_branching_order_witness :
    (WorkingValues.init 2).child true =
      ⟨(WorkingValues.init 2).mValues.set (WorkingValues.init 2).mStartOfThawed.toNat true,
        (WorkingValues.init 2).mStartOfThawed + 1⟩ ∧
    (WorkingValues.init 2).child false =
      ⟨(WorkingValues.init 2).mValues.set (WorkingValues.init 2).mStartOfThawed.toNat false,
        (WorkingValues.init 2).mStartOfThawed + 1⟩ ∧
    solve tokensXY (.init 2) =
      (match solve tokensXY ((WorkingValues.init 2).child true) with
       | .spin => .spin
       | .ub => .ub
       | .ok rT =>
         if rT.isSatisfied then .ok rT
         else
           match solve tokensXY ((WorkingValues.init 2).child false) with
           | .spin => .spin
           | .ub => .ub
           | .ok rF => if rF.isSatisfied then .ok rF else .ok .unsatS) :=
  c4_branching_order tokensXY (.init 2) (.boolR false) 3 (by decide) rfl rfl (by decide)

/-- The evaluator's cursor never moves left of where a call started
(except the single-step unget of the connective loop, which still stays
at or beyond the position before the loop token). -/
theorem eval_pos_mono (tokens : List Token) : ∀ f : Nat,
    (∀ (i : Nat) (vals : List Bool) (r : EvalResult) (k : Nat),
      evalClauseF f tokens i vals = .ok (r, k) → i ≤ k) ∧
    (∀ (i : Nat) (vals : List Bool) (r : EvalResult) (k : Nat),
      evalF f tokens i vals = .ok (r, k) → i ≤ k) ∧
    (∀ (rr : EvalResult) (j : Nat) (vals : List Bool) (r : EvalResult) (k : Nat),
      evalLoopF f tokens rr j vals = .ok (r, k) → j - 1 ≤ k) := by
  intro f
  induction f with
  | zero =>
    refine ⟨?_, ?_, ?_⟩
    · intro i vals r k h; simp [evalClauseF] at h
    · intro i vals r k h; simp [evalF] at h
    · intro rr j vals r k h; simp [evalLoopF] at h
  | succ f ih =>
    obtain ⟨ihC, ihE, ihL⟩ := ih
    refine ⟨?_, ?_, ?_⟩
    · intro i vals r k h
      unfold evalClauseF at h
      split at h
      · simp at h
      · split at h
        · simp only [Res.ok.injEq, Prod.mk.injEq] at h; omega
        · simp only [Res.ok.injEq, Prod.mk.injEq] at h; omega
        · simp only [Res.ok.injEq, Prod.mk.injEq] at h; omega
        · -- TT_Not
          split at h
          · simp only [Res.ok.injEq, Prod.mk.injEq] at h; omega
          · split at h
            · simp at h
            · simp at h
            · rename_i right k2 heq
              have hmono := ihC (i + 1) vals right k2 heq
              split at h
              · simp only [Res.ok.injEq, Prod.mk.injEq] at h; omega
              · split at h
                · simp at h
                · simp only [Res.ok.injEq, Prod.mk.injEq] at h; omega
        · -- TT_Literal
          split at h
          · simp only [Res.ok.injEq, Prod.mk.injEq] at h; omega
          · split at h
            · simp at h
            · simp only [Res.ok.injEq, Prod.mk.injEq] at h; omega
        · -- TT_OpenBracket
          split at h
          · simp only [Res.ok.injEq, Prod.mk.injEq] at h; omega
          · split at h
            · simp at h
            · simp at h
            · rename_i right j2 heq
              have hmono := ihE (i + 1) vals right j2 heq
              split at h
              · simp at h
              · split at h
                · simp only [Res.ok.injEq, Prod.mk.injEq] at h; omega
                · simp only [Res.ok.injEq, Prod.mk.injEq] at h; omega
        · simp only [Res.ok.injEq, Prod.mk.injEq] at h; omega
        · simp only [Res.ok.injEq, Prod.mk.injEq] at h; omega
        · simp only [Res.ok.injEq, Prod.mk.injEq] at h; omega
    · intro i vals r k h
      unfold evalF at h
      split at h
      · simp at h
      · simp at h
      · rename_i r2 j2 heq
        have hmono := ihC i vals r2 j2 heq
        split at h
        · simp only [Res.ok.injEq, Prod.mk.injEq] at h; omega
        · have hloop := ihL r2 (j2 + 1) vals r k h
          omega
    · intro rr j vals r k h
      unfold evalLoopF at h
      split at h
      · simp only [Res.ok.injEq, Prod.mk.injEq] at h; omega
      · split at h
        · simp at h
        · split at h
          · simp only [Res.ok.injEq, Prod.mk.injEq] at h; omega
          · split at h
            · simp only [Res.ok.injEq, Prod.mk.injEq] at h; omega
            · split at h
              · simp only [Res.ok.injEq, Prod.mk.injEq] at h; omega
              · split at h
                · simp at h
                · simp at h
                · rename_i right k2 heq
                  have hmono := ihC (j + 1) vals right k2 heq
                  split at h
                  · simp only [Res.ok.injEq, Prod.mk.injEq] at h; omega
                  · split at h
                    · have hloop := ihL _ (k2 + 1) vals r k h
                      omega
                    · simp at h

/-- An `ok` return of `evalClause` implies the call started at a valid
token position. -/
theorem evalClauseF_ok_lt (tokens : List Token) (f i : Nat) (vals : List Bool)
    (r : EvalResult) (k : Nat) (h : evalClauseF f tokens i vals = .ok (r, k)) :
    i < tokens.length := by
  cases f with
  | zero => simp [evalClauseF] at h
  | succ f =>
    unfold evalClauseF at h
    split at h
    · simp at h
    · rename_i t heq
      exact (List.getElem?_eq_some.mp heq).1

/-- Fuel sufficiency for the evaluator: `2 * (length - position) + 2`
nested calls are always enough, because every recursive descent either
advances the cursor or alternates `eval`/`evalClause` once before
advancing.  With the canonical fuel (`evalFuel`), the model therefore
never exhausts fuel — the C++ evaluator's recursion always bottoms
out. -/
theorem eval_no_spin (tokens : List Token) : ∀ f : Nat,
    (∀ (i : Nat) (vals : List Bool), 2 * (tokens.length - i) + 1 ≤ f →
      evalClauseF f tokens i vals ≠ .spin) ∧
    (∀ (i : Nat) (vals : List Bool), 2 * (tokens.length - i) + 2 ≤ f →
      evalF f tokens i vals ≠ .spin) ∧
    (∀ (rr : EvalResult) (j : Nat) (vals : List Bool), 2 * (tokens.length - j) + 2 ≤ f →
      evalLoopF f tokens rr j vals ≠ .spin) := by
  intro f
  induction f with
  | zero =>
    refine ⟨?_, ?_, ?_⟩
    · intro i vals hb; omega
    · intro i vals hb; omega
    · intro rr j vals hb; omega
  | succ f ih =>
    obtain ⟨ihC, ihE, ihL⟩ := ih
    refine ⟨?_, ?_, ?_⟩
    · intro i vals hb
      unfold evalClauseF
      split
      · simp
      · rename_i t heq
        have hilt : i < tokens.length := (List.getElem?_eq_some.mp heq).1
        split
        · simp
        · simp
        · simp
        · -- TT_Not
          split
          · simp
          · split
            · rename_i heq2
              exact absurd heq2 (ihC (i + 1) vals (by omega))
            · simp
            · split
              · simp
              · split
                · simp
                · simp
        · -- TT_Literal
          split
          · simp
          · split
            · simp
            · simp
        · -- TT_OpenBracket
          split
          · simp
          · split
            · rename_i heq2
              exact absurd heq2 (ihE (i + 1) vals (by omega))
            · simp
            · split
              · simp
              · split
                · simp
                · simp
        · simp
        · simp
        · simp
    · intro i vals hb
      unfold evalF
      split
      · rename_i heq
        exact absurd heq (ihC i vals (by omega))
      · simp
      · rename_i r2 j2 heq
        have hilt : i < tokens.length := evalClauseF_ok_lt tokens f i vals r2 j2 heq
        have hmono : i ≤ j2 := (eval_pos_mono tokens f).1 i vals r2 j2 heq
        split
        · simp
        · exact ihL r2 (j2 + 1) vals (by omega)
    · intro rr j vals hb
      unfold evalLoopF
      split
      · simp
      · split
        · simp
        · rename_i t heq
          have hjlt : j < tokens.length := (List.getElem?_eq_some.mp heq).1
          split
          · simp
          · split
            · simp
            · split
              · simp
              · split
                · rename_i heq2
                  exact absurd heq2 (ihC (j + 1) vals (by omega))
                · simp
                · rename_i right k2 heq2
                  have hmono : j + 1 ≤ k2 := (eval_pos_mono tokens f).1 (j + 1) vals right k2 heq2
                  split
                  · simp
                  · split
                    · exact ihL _ (k2 + 1) vals (by omega)
                    · simp

/-- The model's canonical fuel never runs out: `evalMain` always
returns an `ok` value or `ub`, mirroring the fact that the C++
`eval`/`evalClause` recursion terminates on every input. -/
theorem evalMain_no_spin (tokens : List Token) (w : WorkingValues) :
    evalMain tokens w ≠ .spin := by
  unfold evalMain evalFuel
  exact (eval_no_spin tokens (2 * tokens.length + 4)).2.1 0 w.mValues (by omega)

/-- The search never exhausts its fuel either: at the natural bound
`sizeThawed + 1` (and beyond), `solveF` never returns the fuel-out
marker — together with `evalMain_no_spin` this is the model's
termination theorem for the whole pipeline. -/
theorem solve_no_spin (tokens : List Token) : ∀ (fuel : Nat) (w : WorkingValues),
    w.sizeThawed < fuel → solveF fuel tokens w ≠ .spin := by
  intro fuel
  induction fuel with
  | zero => intro w hb; omega
  | succ fuel ih =>
    intro w hb
    unfold solveF
    cases hev : evalMain tokens w with
    | spin => exact absurd hev (evalMain_no_spin tokens w)
    | ub => simp
    | ok q =>
      obtain ⟨er, p⟩ := q
      dsimp only
      by_cases herr : er.isError = true
      · simp [if_pos herr]
      · simp only [if_neg herr]
        cases er.mBoolResult with
        | none => simp
        | some b =>
          cases b with
          | true => simp
          | false =>
            dsimp only
            by_cases hz : w.sizeThawed = 0
            · simp [if_pos hz]
            · simp only [if_neg hz]
              have hc := WorkingValues.sizeThawed_child w true hz
              have hcF := WorkingValues.sizeThawed_child w false hz
              cases hT : solveF fuel tokens (w.child true) with
              | spin => exact absurd hT (ih (w.child true) (by omega))
              | ub => simp
              | ok rT =>
                dsimp only
                by_cases hsT : rT.isSatisfied = true
                · simp [if_pos hsT]
                · simp only [if_neg hsT]
                  cases hF : solveF fuel tokens (w.child false) with
                  | spin => exact absurd hF (ih (w.child false) (by omega))
                  | ub => simp
                  | ok rF =>
                    dsimp only
                    by_cases hsF : rF.isSatisfied = true
                    · simp [if_pos hsF]
                    · simp [if_neg hsF]

/-- Number of fully-committed leaf states (`sizeThawed == 0`) the
search visits below (and including) a node, following exactly the
control flow of `solveF`: no recursion on evaluation error or success,
and the second branch only when the first is not satisfied. -/
def countLeavesF : Nat → List Token → WorkingValues → Nat
  | 0, _, _ => 0
  | fuel + 1, tokens, w =>
    if w.sizeThawed = 0 then 1
    else
      match evalMain tokens w with
      | .spin => 0
      | .ub => 0
      | .ok (er, _) =>
        if er.isError then 0
        else
          match er.mBoolResult with
          | none => 0
          | some true => 0
          | some false =>
            match solveF fuel tokens (w.child true) with
            | .ok rT =>
              if rT.isSatisfied then countLeavesF fuel tokens (w.child true)
              else countLeavesF fuel tokens (w.child true) +
                countLeavesF fuel tokens (w.child false)
            | _ => countLeavesF fuel tokens (w.child true)

/-- Depth of the search recursion below a node (0 at a node that does
not recurse), following exactly the control flow of `solveF`. -/
def solveDepthF : Nat → List Token → WorkingValues → Nat
  | 0, _, _ => 0
  | fuel + 1, tokens, w =>
    if w.sizeThawed = 0 then 0
    else
      match evalMain tokens w with
      | .spin => 0
      | .ub => 0
      | .ok (er, _) =>
        if er.isError then 0
        else
          match er.mBoolResult with
          | none => 0
          | some true => 0
          | some false =>
            match solveF fuel tokens (w.child true) with
            | .ok rT =>
              if rT.isSatisfied then solveDepthF fuel tokens (w.child true) + 1
              else max (solveDepthF fuel tokens (w.child true))
                (solveDepthF fuel tokens (w.child false)) + 1
            | _ => solveDepthF fuel tokens (w.child true) + 1

/-- The search visits at most `2 ^ sizeThawed` fully-committed leaf
assignments below any node. -/
theorem countLeavesF_le (tokens : List Token) :
    ∀ fuel (w : WorkingValues), countLeavesF fuel tokens w ≤ 2 ^ w.sizeThawed := by
  intro fuel
  induction fuel with
  | zero => intro w; simp [countLeavesF]
  | succ fuel ih =>
    intro w
    unfold countLeavesF
    by_cases hz : w.sizeThawed = 0
    · rw [if_pos hz, hz]
      decide
    · rw [if_neg hz]
      have hc := WorkingValues.sizeThawed_child w true hz
      have hcF := WorkingValues.sizeThawed_child w false hz
      have hT := ih (w.child true)
      have hF := ih (w.child false)
      have hpow : 2 ^ (w.child true).sizeThawed + 2 ^ (w.child false).sizeThawed
          ≤ 2 ^ w.sizeThawed := by
        rw [← hc, pow_succ]
        have : (w.child false).sizeThawed = (w.child true).sizeThawed := by omega
        rw [this]
        omega
      have hone : 2 ^ (w.child true).sizeThawed ≤ 2 ^ w.sizeThawed :=
        Nat.pow_le_pow_right (by omega) (by omega)
      cases evalMain tokens w with
      | spin => simp
      | ub => simp
      | ok q =>
        obtain ⟨er, p⟩ := q
        dsimp only
        by_cases herr : er.isError = true
        · rw [if_pos herr]; simp
        · rw [if_neg herr]
          cases er.mBoolResult with
          | none => simp
          | some b =>
            cases b with
            | true => simp
            | false =>
              dsimp only
              cases solveF fuel tokens (w.child true) with
              | spin => dsimp only; omega
              | ub => dsimp only; omega
              | ok rT =>
                dsimp only
                by_cases hsat : rT.isSatisfied = true
                · rw [if_pos hsat]; omega
                · rw [if_neg hsat]; omega

/-- The search recursion depth below any node is bounded by its thawed
count. -/
theorem solveDepthF_le (tokens : List Token) :
    ∀ fuel (w : WorkingValues), solveDepthF fuel tokens w ≤ w.sizeThawed := by
  intro fuel
  induction fuel with
  | zero => intro w; simp [solveDepthF]
  | succ fuel ih =>
    intro w
    unfold solveDepthF
    by_cases hz : w.sizeThawed = 0
    · rw [if_pos hz, hz]
    · rw [if_neg hz]
      have hc := WorkingValues.sizeThawed_child w true hz
      have hcF := WorkingValues.sizeThawed_child w false hz
      have hT := ih (w.child true)
      have hF := ih (w.child false)
      cases evalMain tokens w with
      | spin => simp
      | ub => simp
      | ok q =>
        obtain ⟨er, p⟩ := q
        dsimp only
        by_cases herr : er.isError = true
        · rw [if_pos herr]; simp
        · rw [if_neg herr]
          cases er.mBoolResult with
          | none => simp
          | some b =>
            cases b with
            | true => simp
            | false =>
              dsimp only
              cases solveF fuel tokens (w.child true) with
              | spin => dsimp only; omega
              | ub => dsimp only; omega
              | ok rT =>
                dsimp only
                by_cases hsat : rT.isSatisfied = true
                · rw [if_pos hsat]; omega
                · rw [if_neg hsat]
                  have : max (solveDepthF fuel tokens (w.child true))
                      (solveDepthF fuel tokens (w.child false)) ≤ (w.child true).sizeThawed := by
                    omega
                  omega

/-- Termination of the search: any fuel beyond the thawed count yields
the same result — `sizeThawed` bounds the recursion depth the search
can reach, so the recursion always bottoms out. -/
theorem solveF_fuel_irrel (tokens : List Token) :
    ∀ f1 f2 (w : WorkingValues), w.sizeThawed < f1 → w.sizeThawed < f2 →
      solveF f1 tokens w = solveF f2 tokens w := by
  intro f1
  induction f1 with
  | zero => intro f2 w h1; omega
  | succ f1 ih =>
    intro f2 w h1 h2
    cases f2 with
    | zero => omega
    | succ f2 =>
      unfold solveF
      cases hev : evalMain tokens w with
      | spin => rfl
      | ub => rfl
      | ok q =>
        obtain ⟨er, p⟩ := q
        dsimp only
        by_cases herr : er.isError = true
        · simp only [if_pos herr]
        · simp only [if_neg herr]
          cases er.mBoolResult with
          | none => rfl
          | some b =>
            cases b with
            | true => rfl
            | false =>
              dsimp only
              by_cases hz : w.sizeThawed = 0
              · simp only [if_pos hz]
              · simp only [if_neg hz]
                have hc := WorkingValues.sizeThawed_child w true hz
                have hcF := WorkingValues.sizeThawed_child w false hz
                have hT : solveF f1 tokens (w.child true) = solveF f2 tokens (w.child true) :=
                  ih f2 (w.child true) (by omega) (by omega)
                have hF : solveF f1 tokens (w.child false) = solveF f2 tokens (w.child false) :=
                  ih f2 (w.child false) (by omega) (by omega)
                rw [hT, hF]

/-- C7 — termination and search bounds: each search step decreases the
thawed count by exactly one; at most `2 ^ sizeThawed` fully-committed
leaf assignments are visited below a node (hence at most `2 ^ n` from
the initial all-thawed state over `n` literals); the recursion depth is
bounded by the thawed count; and the recursion terminates — any fuel
above `sizeThawed` gives the value `solve` computes at its natural
bound `sizeThawed + 1`, and `solve` never exhausts that bound. -/
theorem c7_termination_and_bounds (tokens : List Token) :
    (∀ (w : WorkingValues) (b : Bool), w.sizeThawed ≠ 0 →
      (w.child b).sizeThawed + 1 = w.sizeThawed) ∧
    (∀ fuel (w : WorkingValues), countLeavesF fuel tokens w ≤ 2 ^ w.sizeThawed) ∧
    (∀ fuel (w : WorkingValues), solveDepthF fuel tokens w ≤ w.sizeThawed) ∧
    (∀ fuel (w : WorkingValues), w.sizeThawed < fuel →
      solveF fuel tokens w = solve tokens w) ∧
    (∀ w : WorkingValues, solve tokens w ≠ .spin) := by
  refine ⟨fun w b hz => WorkingValues.sizeThawed_child w b hz,
    countLeavesF_le tokens, solveDepthF_le tokens, ?_, ?_⟩
  · intro fuel w h
    unfold solve
    exact solveF_fuel_irrel tokens fuel (w.sizeThawed + 1) w h (by omega)
  · intro w
    unfold solve
    exact solve_no_spin tokens (w.sizeThawed + 1) w (by omega)

/-- C7 witness: the bounds at the `x & y` search from the all-thawed
two-literal state, and stability of the result under extra fuel. -/
theorem c7_termination_and_bounds_witness :
    ((WorkingValues.init 2).child true).sizeThawed + 1 = (WorkingValues.init 2).sizeThawed ∧
    countLeavesF 3 tokensXY (.init 2) ≤ 2 ^ (WorkingValues.init 2).sizeThawed ∧
    solveDepthF 3 tokensXY (.init 2) ≤ (WorkingValues.init 2).sizeThawed ∧
    solveF 7 tokensXY (.init 2) = solve tokensXY (.init 2) ∧
    solve tokensXY (.init 2) ≠ .spin :=
  ⟨(c7_termination_and_bounds tokensXY).1 (.init 2) true (by decide),
    (c7_termination_and_bounds tokensXY).2.1 3 (.init 2),
    (c7_termination_and_bounds tokensXY).2.2.1 3 (.init 2),
    (c7_termination_and_bounds tokensXY).2.2.2.1 7 (.init 2) (by decide),
    (c7_termination_and_bounds tokensXY).2.2.2.2 (.init 2)⟩

/-- States reachable by the search from a start state: the start itself,
and — from a reached node whose evaluation returned `false` with thawed
literals remaining (the only situation in which `solve` recurses) — the
node obtained by `advance` + `setFrozenLastBool b`. -/
inductive Reached (tokens : List Token) (w0 : WorkingValues) : WorkingValues → Prop where
  | refl : Reached tokens w0 w0
  | step : ∀ (w : WorkingValues) (er : EvalResult) (p : Nat) (b : Bool),
      Reached tokens w0 w → evalMain tokens w = .ok (er, p) → er.mError = "" →
      er.mBoolResult = some false → w.sizeThawed ≠ 0 → Reached tokens w0 (w.child b)

/-- C8 — assignment partition invariant: every state reachable during a
search over an `n`-literal registry keeps the value vector at length
`n`, keeps the start-of-thawed boundary within `[0, n]`, satisfies
frozen-length + thawed-length = `n`, and every search step moves
exactly the first thawed literal (position `mStartOfThawed`) into the
frozen region, advancing the boundary by one. -/
theorem c8_partition_invariant (tokens : List Token) (n : Nat) (hn : 0 < n)
    (w : WorkingValues) (hr : Reached tokens (.init n) w) :
    w.mValues.length = n ∧ 0 ≤ w.mStartOfThawed ∧ w.mStartOfThawed.toNat ≤ n ∧
    w.mStartOfThawed.toNat + w.sizeThawed = n ∧
    (∀ b : Bool, w.sizeThawed ≠ 0 →
      (w.child b).mStartOfThawed = w.mStartOfThawed + 1 ∧
      (w.child b).mValues = w.mValues.set w.mStartOfThawed.toNat b ∧
      (w.child b).sizeThawed + 1 = w.sizeThawed) := by
  have hstep : ∀ (w : WorkingValues) (b : Bool), w.sizeThawed ≠ 0 →
      (w.child b).mStartOfThawed = w.mStartOfThawed + 1 ∧
      (w.child b).mValues = w.mValues.set w.mStartOfThawed.toNat b ∧
      (w.child b).sizeThawed + 1 = w.sizeThawed := by
    intro w b hz
    refine ⟨?_, ?_, WorkingValues.sizeThawed_child w b hz⟩
    · rw [WorkingValues.child_eq]
    · rw [WorkingValues.child_eq]
  induction hr with
  | refl =>
    refine ⟨by simp [WorkingValues.init], ?_, ?_, ?_, fun b hz => hstep _ b hz⟩
    · simp [WorkingValues.init, hn]
    · simp [WorkingValues.init, hn]
    · unfold WorkingValues.init WorkingValues.sizeThawed
      rw [if_pos hn]
      have hne : ¬ ((List.replicate n false).isEmpty = true ∨ (0 : Int) < 0) := by
        rw [List.isEmpty_iff_length_eq_zero]
        push_neg
        constructor
        · simp
          omega
        · omega
      simp only [hne, if_false]
      simp
  | step w er p b hw hev hmerr hbool hz ih =>
    obtain ⟨ihlen, ihge, ihle, ihsum, _⟩ := ih
    have hc := WorkingValues.sizeThawed_child w b hz
    refine ⟨?_, ?_, ?_, ?_, fun b2 hz2 => hstep _ b2 hz2⟩
    · rw [WorkingValues.child_length, ihlen]
    · rw [WorkingValues.child_eq]
      show (0 : Int) ≤ w.mStartOfThawed + 1
      omega
    · rw [WorkingValues.child_eq]
      show (w.mStartOfThawed + 1).toNat ≤ n
      omega
    · have hsot : (w.child b).mStartOfThawed = w.mStartOfThawed + 1 := by
        rw [WorkingValues.child_eq]
      rw [hsot]
      have ht : (w.mStartOfThawed + 1).toNat = w.mStartOfThawed.toNat + 1 := by omega
      rw [ht]
      omega

/-- C8 witness: one search step on `x & y` from the all-thawed
two-literal state reaches a state satisfying the partition invariant. -/
theorem c8_partition_invariant_witness :
    ((WorkingValues.init 2).child true).mValues.length = 2 ∧
    0 ≤ ((WorkingValues.init 2).child true).mStartOfThawed ∧
    ((WorkingValues.init 2).child true).mStartOfThawed.toNat ≤ 2 ∧
    ((WorkingValues.init 2).child true).mStartOfThawed.toNat +
      ((WorkingValues.init 2).child true).sizeThawed = 2 ∧
    (∀ b : Bool, ((WorkingValues.init 2).child true).sizeThawed ≠ 0 →
      (((WorkingValues.init 2).child true).child b).mStartOfThawed =
        ((WorkingValues.init 2).child true).mStartOfThawed + 1 ∧
      (((WorkingValues.init 2).child true).child b).mValues =
        ((WorkingValues.init 2).child true).mValues.set
          ((WorkingValues.init 2).child true).mStartOfThawed.toNat b ∧
      (((WorkingValues.init 2).child true).child b).sizeThawed + 1 =
        ((WorkingValues.init 2).child true).sizeThawed) :=
  c8_partition_invariant tokensXY 2 (by decide) ((WorkingValues.init 2).child true)
    (Reached.step (.init 2) (.boolR false) 3 true Reached.refl (by decide) rfl rfl (by decide))

end Rsolver
